import Mathlib

/-!
Shallow embedding of `src/bbn.py`: a Bayesian belief network classifier over
binary variables.  Python dictionaries are modelled as insertion-ordered
association lists, Python floats as exact rationals, and Python exceptions as
an explicit error type.  Because two of the properties below concern object
identity (deep copies in `_build_queries`, in-place mutation of the caller's
query dictionary in `_classify_all_evidence`), mutable dictionaries are
modelled by an explicit heap of dictionaries addressed by natural numbers.
-/

/-- The exceptions the Python code can raise, by exception kind and payload:
`BadQueryError('Query is empty')`, `BadQueryError('Variable ... not in graph')`,
`BadQueryError('Node ... has no parents')`, `KeyError(key)` from a dictionary
lookup, and the `TypeError` raised by `reduce` on an empty sequence. -/
inductive PyError where
  | emptyQuery : PyError
  | unknownVariable : String → PyError
  | badQueryNoParents : String → PyError
  | keyError : String → PyError
  | typeErrorEmptyReduce : PyError
deriving DecidableEq, Repr

instance {ε α : Type} [DecidableEq ε] [DecidableEq α] : DecidableEq (Except ε α)
  | .ok a, .ok b =>
    if h : a = b then .isTrue (by rw [h])
    else .isFalse (fun hh => h (Except.ok.inj hh))
  | .ok _, .error _ => .isFalse (fun hh => Except.noConfusion hh)
  | .error _, .ok _ => .isFalse (fun hh => Except.noConfusion hh)
  | .error e, .error e' =>
    if h : e = e' then .isTrue (by rw [h])
    else .isFalse (fun hh => h (Except.error.inj hh))

/-- A Python `dict` with string keys: insertion-ordered association list. -/
abbrev Dict := List (String × String)

/-- Dictionary lookup (`d[k]` / `k in d`): the value at the first matching key. -/
def dGet {α : Type} : List (String × α) → String → Option α
  | [], _ => none
  | (k', v) :: rest, k => if k' = k then some v else dGet rest k

/-- Dictionary assignment `d[k] = v`: replaces the value in place when the key
is present (keeping its position), otherwise appends the new binding. -/
def dSet {α : Type} (d : List (String × α)) (k : String) (v : α) : List (String × α) :=
  if (dGet d k).isSome then d.map (fun p => if p.1 = k then (k, v) else p)
  else d ++ [(k, v)]

/-- A heap of dictionaries; an address is an index into the list. -/
abbrev Heap := List Dict

/-- Read the dictionary at an address (unallocated addresses read as empty). -/
def hGet : Heap → Nat → Dict
  | [], _ => []
  | d :: _, 0 => d
  | _ :: h, n + 1 => hGet h n

/-- Overwrite the dictionary at an address (no-op when unallocated). -/
def hSet : Heap → Nat → Dict → Heap
  | [], _, _ => []
  | _ :: h, 0, d => d :: h
  | e :: h, n + 1, d => e :: hSet h n d

/-- `BBN_Node`: a node of the network, with its probability table (only the
probability of `'t'` is stored), its label, and its ordered parent labels. -/
structure BBN_Node where
  p_table : List (String × ℚ)
  label : String
  parents : List String
deriving DecidableEq, Repr

/-- `BBN_Node.has_parents`. -/
def BBN_Node.has_parents (n : BBN_Node) : Bool :=
  decide (n.parents ≠ [])

/-- `BBN_Node.get_prob(val, parents_vals)`: a parentless node given a non-empty
`parents_vals` raises `BadQueryError`; a parentless node reads `p_table['t']`;
otherwise the node reads `p_table[parents_vals]` (raising `KeyError` when the
key is absent) and returns the stored probability for `val == 't'`, else its
complement. -/
def BBN_Node.get_prob (n : BBN_Node) (val : String) (parents_vals : String) :
    Except PyError ℚ :=
  if n.parents = [] ∧ parents_vals ≠ "" then
    .error (.badQueryNoParents n.label)
  else if n.parents = [] then
    match dGet n.p_table "t" with
    | none => .error (.keyError "t")
    | some prob => .ok (if val = "t" then prob else 1 - prob)
  else
    match dGet n.p_table parents_vals with
    | none => .error (.keyError parents_vals)
    | some prob => .ok (if val = "t" then prob else 1 - prob)

/-- `BBN`: the target label and the label→node dictionary `self.graph`. -/
structure BBN where
  target : String
  graph : List (String × BBN_Node)

/-- `BBN.__init__`: build `self.graph` by inserting each node under its label. -/
def mkBBN (nodes : List BBN_Node) (target : String) : BBN :=
  { target := target
    graph := nodes.foldl (fun g node => dSet g node.label node) [] }

/-- `''.join([q[p] for p in parents])`: concatenate the query's values of the
parents in declared order, raising `KeyError` at the first absent parent. -/
def joinParents (q : Dict) : List String → Except PyError String
  | [] => .ok ""
  | p :: ps =>
    match dGet q p with
    | none => .error (.keyError p)
    | some v =>
      match joinParents q ps with
      | .error e => .error e
      | .ok rest => .ok (v ++ rest)

/-- The factor-collection loop of `BBN._query`: walk the graph in insertion
order and, for every node that has parents, look up its conditional
probability under the assignment `q`. -/
def collectProbs (q : Dict) : List (String × BBN_Node) → Except PyError (List ℚ)
  | [] => .ok []
  | (label, cn) :: rest =>
    if cn.has_parents then
      match joinParents q cn.parents with
      | .error e => .error e
      | .ok p_vals =>
        match dGet q label with
        | none => .error (.keyError label)
        | some v =>
          match cn.get_prob v p_vals with
          | .error e => .error e
          | .ok p =>
            match collectProbs q rest with
            | .error e => .error e
            | .ok ps => .ok (p :: ps)
    else collectProbs q rest

/-- `BBN._query(q)`: collect the factors and combine them with
`reduce(lambda x,y: x*y, probs)`, which raises `TypeError` on an empty list. -/
def bbnQuery (b : BBN) (q : Dict) : Except PyError ℚ :=
  match collectProbs q b.graph with
  | .error e => .error e
  | .ok [] => .error .typeErrorEmptyReduce
  | .ok (p :: ps) => .ok (ps.foldl (fun x y => x * y) p)

/-- `BBN._get_unknowns(query)`: graph labels that are neither query keys nor
the target, in graph insertion order. -/
def getUnknowns (b : BBN) (q : Dict) : List String :=
  (b.graph.map Prod.fst).filter (fun n => (dGet q n).isNone && decide (n ≠ b.target))

/-- The validation loop `for var in q: if var not in self.graph: raise`:
the first query key that is not a graph label, if any. -/
def firstUnknownVar (b : BBN) : Dict → Option String
  | [] => none
  | (k, _) :: rest => if (dGet b.graph k).isSome then firstUnknownVar b rest else some k

/-- One pass of the doubling loop in `BBN._build_queries`: every address in the
working collection is popped and replaced by two freshly allocated deep copies,
one binding the unknown `u` to `'t'` and one to `'f'`. -/
def buildStep (h : Heap) (addrs : List Nat) (u : String) : Heap × List Nat :=
  match addrs with
  | [] => (h, [])
  | a :: rest =>
    let d := hGet h a
    let r := buildStep (h ++ [dSet d u "t", dSet d u "f"]) rest u
    (r.1, h.length :: (h.length + 1) :: r.2)

/-- The outer loop of `BBN._build_queries`: process each unknown in turn. -/
def buildQueriesFrom (h : Heap) (addrs : List Nat) : List String → Heap × List Nat
  | [] => (h, addrs)
  | u :: us =>
    let r := buildStep h addrs u
    buildQueriesFrom r.1 r.2 us

/-- `BBN._build_queries(q, unknowns)`: start from the caller's query object and
double once per unknown. -/
def buildQueries (h : Heap) (qa : Nat) (unknowns : List String) : Heap × List Nat :=
  buildQueriesFrom h [qa] unknowns

/-- The scoring loop of `BBN._classify_partial_evidence`: for each completion
(in order) bind the target to `'t'` in place, score, rebind to `'f'`, score,
appending the scores to the two lists. -/
def scoreLoop (b : BBN) : Heap → List Nat → List ℚ → List ℚ →
    Except PyError (List ℚ × List ℚ) × Heap
  | h, [], ts, fs => (.ok (ts, fs), h)
  | h, a :: rest, ts, fs =>
    let h1 := hSet h a (dSet (hGet h a) b.target "t")
    match bbnQuery b (hGet h1 a) with
    | .error e => (.error e, h1)
    | .ok pt =>
      let h2 := hSet h1 a (dSet (hGet h1 a) b.target "f")
      match bbnQuery b (hGet h2 a) with
      | .error e => (.error e, h2)
      | .ok pf => scoreLoop b h2 rest (ts ++ [pt]) (fs ++ [pf])

/-- `BBN._classify_all_evidence(q)`: bind the target to `'t'` in the caller's
dictionary, score, rebind to `'f'`, score, and compare strictly. -/
def classifyAllEvidence (b : BBN) (h : Heap) (qa : Nat) : Except PyError Bool × Heap :=
  let h1 := hSet h qa (dSet (hGet h qa) b.target "t")
  match bbnQuery b (hGet h1 qa) with
  | .error e => (.error e, h1)
  | .ok yes =>
    let h2 := hSet h1 qa (dSet (hGet h1 qa) b.target "f")
    match bbnQuery b (hGet h2 qa) with
    | .error e => (.error e, h2)
    | .ok no => (.ok (decide (no < yes)), h2)

/-- `BBN._classify_partial_evidence(q, unknowns)`: build the completions, run
the scoring loop, then compare the two sums strictly. -/
def classifyPartialEvidence (b : BBN) (h : Heap) (qa : Nat) (us : List String) :
    Except PyError Bool × Heap :=
  let r := buildQueries h qa us
  let pl := scoreLoop b r.1 r.2 [] []
  (match pl.1 with
   | .error e => .error e
   | .ok (ts, fs) => .ok (decide (fs.sum < ts.sum)), pl.2)

/-- `BBN.classify(q)`: reject an empty query, reject the first query key not in
the graph, then dispatch on whether any unknowns remain. -/
def classify (b : BBN) (h : Heap) (qa : Nat) : Except PyError Bool × Heap :=
  let q := hGet h qa
  if q = [] then (.error .emptyQuery, h)
  else
    match firstUnknownVar b q with
    | some k => (.error (.unknownVariable k), h)
    | none =>
      let us := getUnknowns b q
      if us = [] then classifyAllEvidence b h qa
      else classifyPartialEvidence b h qa us

/-! ### The example network of `__main__` (also the end-to-end test vector) -/

def eNode : BBN_Node := { p_table := [("t", 0.7)], label := "e", parents := [] }

def dNode : BBN_Node := { p_table := [("t", 0.25)], label := "d", parents := [] }

def hdNode : BBN_Node :=
  { p_table := [("tt", 0.25), ("tf", 0.45), ("ft", 0.55), ("ff", 0.75)],
    label := "hd", parents := ["e", "d"] }

def cpNode : BBN_Node :=
  { p_table := [("t", 0.8), ("f", 0.01)], label := "cp", parents := ["hd"] }

def bpNode : BBN_Node :=
  { p_table := [("t", 0.85), ("f", 0.2)], label := "bp", parents := ["hd"] }

def exBBN : BBN := mkBBN [eNode, dNode, hdNode, cpNode, bpNode] "hd"

/-- The example full-evidence query `{'e':'f','d':'t','cp':'t','bp':'t'}`. -/
def exQ4 : Dict := [("e", "f"), ("d", "t"), ("cp", "t"), ("bp", "t")]

/-- The partial-evidence query `{'e':'f','cp':'t','bp':'t'}` (`d` unknown). -/
def exQ3 : Dict := [("e", "f"), ("cp", "t"), ("bp", "t")]

/-! ### Dictionary lemmas -/

theorem dGet_none_map {α : Type} (d : List (String × α)) (k : String) (v : α)
    (h : dGet d k = none) :
    d.map (fun p => if p.1 = k then (k, v) else p) = d := by
  induction d with
  | nil => rfl
  | cons p rest ih =>
    obtain ⟨k', v'⟩ := p
    simp only [dGet] at h
    by_cases hk : k' = k
    · simp [hk] at h
    · rw [if_neg hk] at h
      simp only [List.map_cons]
      rw [if_neg hk, ih h]

theorem dGet_append_none {α : Type} (d e : List (String × α)) (k : String)
    (h : dGet d k = none) :
    dGet (d ++ e) k = dGet e k := by
  induction d with
  | nil => rfl
  | cons p rest ih =>
    obtain ⟨k', v'⟩ := p
    simp only [dGet] at h
    by_cases hk : k' = k
    · simp [hk] at h
    · rw [if_neg hk] at h
      simp only [List.cons_append, dGet]
      rw [if_neg hk]
      exact ih h

theorem dSet_pos {α : Type} (d : List (String × α)) (k : String) (v : α)
    (h : (dGet d k).isSome) :
    dSet d k v = d.map (fun p => if p.1 = k then (k, v) else p) := by
  unfold dSet; rw [if_pos h]

theorem dSet_neg {α : Type} (d : List (String × α)) (k : String) (v : α)
    (h : ¬(dGet d k).isSome = true) :
    dSet d k v = d ++ [(k, v)] := by
  unfold dSet; rw [if_neg h]

theorem dGet_map_set {α : Type} (d : List (String × α)) (k : String) (v : α) :
    dGet (d.map (fun p => if p.1 = k then (k, v) else p)) k =
      if (dGet d k).isSome then some v else none := by
  induction d with
  | nil => rfl
  | cons p rest ih =>
    obtain ⟨k', v'⟩ := p
    simp only [List.map_cons]
    by_cases hk : k' = k
    · subst hk
      have hhead : (if (k', v').1 = k' then (k', v) else (k', v')) = (k', v) := by simp
      rw [hhead]
      simp [dGet]
    · have hhead : (if (k', v').1 = k then (k, v) else (k', v')) = (k', v') := by
        simp [hk]
      rw [hhead]
      simp [dGet, hk, ih]

theorem dGet_dSet_same {α : Type} (d : List (String × α)) (k : String) (v : α) :
    dGet (dSet d k v) k = some v := by
  by_cases h : (dGet d k).isSome
  · rw [dSet_pos d k v h, dGet_map_set, if_pos h]
  · have hn : dGet d k = none := by
      cases hd : dGet d k
      · rfl
      · rw [hd] at h; simp at h
    rw [dSet_neg d k v h, dGet_append_none d _ k hn]
    simp [dGet]

theorem dSet_dSet_same {α : Type} (d : List (String × α)) (k : String) (v w : α) :
    dSet (dSet d k v) k w = dSet d k w := by
  have h2 : (dGet (dSet d k v) k).isSome := by rw [dGet_dSet_same]; rfl
  by_cases h : (dGet d k).isSome
  · rw [dSet_pos (dSet d k v) k w h2, dSet_pos d k v h, List.map_map]
    have h4 : ((fun p : String × α => if p.1 = k then (k, w) else p) ∘
        (fun p : String × α => if p.1 = k then (k, v) else p)) =
        (fun p : String × α => if p.1 = k then (k, w) else p) := by
      funext p
      by_cases hp : p.1 = k
      · simp [Function.comp, hp]
      · simp [Function.comp, hp]
    rw [h4, dSet_pos d k w h]
  · have hn : dGet d k = none := by
      cases hd : dGet d k
      · rfl
      · rw [hd] at h; simp at h
    rw [dSet_pos (dSet d k v) k w h2, dSet_neg d k v h, List.map_append,
      dGet_none_map d k w hn, dSet_neg d k w h]
    simp

/-! ### Heap lemmas -/

theorem hSet_length : ∀ (h : Heap) (a : Nat) (d : Dict),
    (hSet h a d).length = h.length := by
  intro h
  induction h with
  | nil => intro a d; rfl
  | cons e rest ih =>
    intro a d
    cases a with
    | zero => rfl
    | succ a' => simpa [hSet] using ih a' d

theorem hGet_hSet_same : ∀ (h : Heap) (a : Nat) (d : Dict), a < h.length →
    hGet (hSet h a d) a = d := by
  intro h
  induction h with
  | nil => intro a d ha; exact absurd ha (by simp)
  | cons e rest ih =>
    intro a d ha
    cases a with
    | zero => rfl
    | succ a' =>
      simp only [hSet, hGet]
      exact ih a' d (Nat.lt_of_succ_lt_succ (by simpa using ha))

theorem hGet_hSet_ne : ∀ (h : Heap) (a b : Nat) (d : Dict), a ≠ b →
    hGet (hSet h a d) b = hGet h b := by
  intro h
  induction h with
  | nil => intro a b d _; rfl
  | cons e rest ih =>
    intro a b d hab
    cases a with
    | zero =>
      cases b with
      | zero => exact absurd rfl hab
      | succ b' => rfl
    | succ a' =>
      cases b with
      | zero => rfl
      | succ b' =>
        simp only [hSet, hGet]
        exact ih a' b' d (fun hh => hab (by rw [hh]))

theorem hGet_append_lt : ∀ (h e : Heap) (i : Nat), i < h.length →
    hGet (h ++ e) i = hGet h i := by
  intro h
  induction h with
  | nil => intro e i hi; exact absurd hi (by simp)
  | cons d rest ih =>
    intro e i hi
    cases i with
    | zero => rfl
    | succ i' =>
      simp only [List.cons_append, hGet]
      exact ih e i' (Nat.lt_of_succ_lt_succ (by simpa using hi))

theorem hGet_append_cons : ∀ (h : Heap) (d : Dict) (e : Heap),
    hGet (h ++ d :: e) h.length = d := by
  intro h
  induction h with
  | nil => intro d e; rfl
  | cons x rest ih =>
    intro d e
    simp only [List.cons_append, List.length_cons, hGet]
    exact ih d e

theorem lt_length_of_hGet_ne_nil : ∀ (h : Heap) (i : Nat), hGet h i ≠ [] →
    i < h.length := by
  intro h
  induction h with
  | nil => intro i hi; exact absurd rfl hi
  | cons e rest ih =>
    intro i hi
    cases i with
    | zero => simp
    | succ i' =>
      have := ih i' hi
      simpa using Nat.succ_lt_succ this

/-! ### Spec-side enumeration: truth vectors and query extensions -/

/-- Concatenation of a list of lists produced elementwise (`flat_map`). -/
def flatMapL {α β : Type} : List α → (α → List β) → List β
  | [], _ => []
  | a :: l, f => f a ++ flatMapL l f

/-- All truth-value vectors of length `n` over the symbols `'t'`/`'f'`, in the
order the doubling loop produces them (first variable most significant). -/
def allVecs : Nat → List (List String)
  | 0 => [[]]
  | n + 1 => (allVecs n).map (fun v => "t" :: v) ++ (allVecs n).map (fun v => "f" :: v)

/-- Extend a query by binding the listed unknowns to the listed truth values. -/
def extendQ : Dict → List String → List String → Dict
  | q, [], _ => q
  | q, _ :: _, [] => q
  | q, u :: us, x :: v => extendQ (dSet q u x) us v

/-- Consecutive heap addresses `s, s+1, ..., s+n-1`. -/
def seqAddrs (s : Nat) : Nat → List Nat
  | 0 => []
  | n + 1 => s :: seqAddrs (s + 1) n

theorem flatMapL_singleton {α β : Type} (l : List α) (f : α → β) :
    flatMapL l (fun a => [f a]) = l.map f := by
  induction l with
  | nil => rfl
  | cons a rest ih => simp [flatMapL, ih]

theorem flatMapL_append {α β : Type} (l1 l2 : List α) (f : α → List β) :
    flatMapL (l1 ++ l2) f = flatMapL l1 f ++ flatMapL l2 f := by
  induction l1 with
  | nil => rfl
  | cons a rest ih => simp [flatMapL, ih]

theorem flatMapL_assoc {α β γ : Type} (l : List α) (g : α → List β) (f : β → List γ) :
    flatMapL (flatMapL l g) f = flatMapL l (fun a => flatMapL (g a) f) := by
  induction l with
  | nil => rfl
  | cons a rest ih => simp [flatMapL, flatMapL_append, ih]

theorem flatMapL_map {α β γ : Type} (l : List α) (g : α → β) (f : β → List γ) :
    flatMapL (l.map g) f = flatMapL l (fun a => f (g a)) := by
  induction l with
  | nil => rfl
  | cons a rest ih => simp [flatMapL, ih]

theorem flatMapL_congr {α β : Type} (l : List α) (f g : α → List β)
    (h : ∀ a ∈ l, f a = g a) :
    flatMapL l f = flatMapL l g := by
  induction l with
  | nil => rfl
  | cons a rest ih =>
    simp only [flatMapL]
    rw [h a (List.mem_cons_self a rest), ih (fun x hx => h x (List.mem_cons_of_mem a hx))]

theorem flatMapL_pair_length {α β : Type} (l : List α) (f g : α → β) :
    (flatMapL l (fun a => [f a, g a])).length = 2 * l.length := by
  induction l with
  | nil => rfl
  | cons a rest ih => simp [flatMapL, ih]; omega

theorem length_allVecs (n : Nat) : (allVecs n).length = 2 ^ n := by
  induction n with
  | zero => rfl
  | succ n' ih => simp [allVecs, ih]; ring

theorem nodup_allVecs (n : Nat) : (allVecs n).Nodup := by
  induction n with
  | zero => simp [allVecs]
  | succ n' ih =>
    simp only [allVecs]
    rw [List.nodup_append]
    refine ⟨ih.map ?_, ih.map ?_, ?_⟩
    · intro a b hab; simpa using hab
    · intro a b hab; simpa using hab
    · intro x hx1 hx2
      obtain ⟨v1, _, rfl⟩ := List.mem_map.mp hx1
      obtain ⟨v2, _, heq⟩ := List.mem_map.mp hx2
      simp at heq

theorem mem_seqAddrs : ∀ (n s a : Nat), a ∈ seqAddrs s n ↔ s ≤ a ∧ a < s + n := by
  intro n
  induction n with
  | zero =>
    intro s a
    simp [seqAddrs]
  | succ n' ih =>
    intro s a
    simp [seqAddrs, ih (s + 1) a]
    omega

theorem nodup_seqAddrs : ∀ (n s : Nat), (seqAddrs s n).Nodup := by
  intro n
  induction n with
  | zero => intro s; simp [seqAddrs]
  | succ n' ih =>
    intro s
    simp only [seqAddrs, List.nodup_cons]
    refine ⟨fun hmem => ?_, ih (s + 1)⟩
    have := (mem_seqAddrs n' (s + 1) s).mp hmem
    omega

theorem map_hGet_seqAddrs : ∀ (e h : Heap),
    (seqAddrs h.length e.length).map (hGet (h ++ e)) = e := by
  intro e
  induction e with
  | nil => intro h; rfl
  | cons d rest ih =>
    intro h
    simp only [List.length_cons, seqAddrs, List.map_cons]
    rw [hGet_append_cons]
    have e1 : h ++ d :: rest = (h ++ [d]) ++ rest := by simp
    have e2 : h.length + 1 = (h ++ [d]).length := by simp
    rw [e1, e2, ih (h ++ [d])]

/-! ### Characterization of the enumeration engine -/

theorem buildStep_spec (u : String) : ∀ (addrs : List Nat) (h : Heap),
    (∀ a ∈ addrs, a < h.length) →
    (buildStep h addrs u).1 =
      h ++ flatMapL addrs (fun a => [dSet (hGet h a) u "t", dSet (hGet h a) u "f"]) ∧
    (buildStep h addrs u).2 = seqAddrs h.length (2 * addrs.length) := by
  intro addrs
  induction addrs with
  | nil =>
    intro h _
    constructor
    · simp [buildStep, flatMapL]
    · simp [buildStep, seqAddrs]
  | cons a rest ih =>
    intro h hv
    have hv' : ∀ x ∈ rest,
        x < (h ++ [dSet (hGet h a) u "t", dSet (hGet h a) u "f"]).length := by
      intro x hx
      have hx2 := hv x (List.mem_cons_of_mem a hx)
      simp only [List.length_append, List.length_cons, List.length_nil]
      omega
    obtain ⟨ih1, ih2⟩ := ih (h ++ [dSet (hGet h a) u "t", dSet (hGet h a) u "f"]) hv'
    have hfst : (buildStep h (a :: rest) u).1 =
        (buildStep (h ++ [dSet (hGet h a) u "t", dSet (hGet h a) u "f"]) rest u).1 := rfl
    have hsnd : (buildStep h (a :: rest) u).2 =
        h.length :: (h.length + 1) ::
          (buildStep (h ++ [dSet (hGet h a) u "t", dSet (hGet h a) u "f"]) rest u).2 := rfl
    constructor
    · rw [hfst, ih1]
      have hcong : flatMapL rest
          (fun x => [dSet (hGet (h ++ [dSet (hGet h a) u "t", dSet (hGet h a) u "f"]) x) u "t",
                     dSet (hGet (h ++ [dSet (hGet h a) u "t", dSet (hGet h a) u "f"]) x) u "f"]) =
          flatMapL rest (fun x => [dSet (hGet h x) u "t", dSet (hGet h x) u "f"]) := by
        apply flatMapL_congr
        intro x hx
        rw [hGet_append_lt h _ x (hv x (List.mem_cons_of_mem a hx))]
      rw [hcong]
      simp [flatMapL, List.append_assoc]
    · rw [hsnd, ih2]
      have hlen : (h ++ [dSet (hGet h a) u "t", dSet (hGet h a) u "f"]).length =
          h.length + 2 := by simp
      rw [hlen]
      have h2 : 2 * (a :: rest).length = 2 * rest.length + 1 + 1 := by
        simp [List.length_cons]
        omega
      rw [h2]
      simp [seqAddrs]

theorem buildFrom_spec : ∀ (us : List String) (h : Heap) (addrs : List Nat),
    (∀ a ∈ addrs, a < h.length) →
    (h.length ≤ (buildQueriesFrom h addrs us).1.length ∧
      (∀ i, i < h.length → hGet (buildQueriesFrom h addrs us).1 i = hGet h i)) ∧
    ((buildQueriesFrom h addrs us).2.map (hGet (buildQueriesFrom h addrs us).1) =
      flatMapL addrs (fun a => (allVecs us.length).map (fun v => extendQ (hGet h a) us v))) ∧
    (∀ a ∈ (buildQueriesFrom h addrs us).2, a < (buildQueriesFrom h addrs us).1.length) ∧
    (addrs.Nodup → (buildQueriesFrom h addrs us).2.Nodup) ∧
    (∀ lb, lb ≤ h.length → (∀ a ∈ addrs, lb ≤ a) →
      ∀ a ∈ (buildQueriesFrom h addrs us).2, lb ≤ a) := by
  intro us
  induction us with
  | nil =>
    intro h addrs hv
    refine ⟨⟨le_refl _, fun i _ => rfl⟩, ?_, hv, fun hnd => hnd, fun lb _ hlb => hlb⟩
    show addrs.map (hGet h) =
      flatMapL addrs (fun a => (allVecs 0).map (fun v => extendQ (hGet h a) [] v))
    have hfun : (fun a => (allVecs 0).map (fun v => extendQ (hGet h a) ([] : List String) v)) =
        (fun a => [hGet h a]) := by
      funext a
      rfl
    rw [hfun, flatMapL_singleton]
  | cons u us' ih =>
    intro h addrs hv
    obtain ⟨hs1, hs2⟩ := buildStep_spec u addrs h hv
    have hlenD : (flatMapL addrs
        (fun a => [dSet (hGet h a) u "t", dSet (hGet h a) u "f"])).length =
        2 * addrs.length := flatMapL_pair_length addrs _ _
    have hred : buildQueriesFrom h addrs (u :: us') =
        buildQueriesFrom
          (h ++ flatMapL addrs (fun a => [dSet (hGet h a) u "t", dSet (hGet h a) u "f"]))
          (seqAddrs h.length (2 * addrs.length)) us' := by
      rw [show buildQueriesFrom h addrs (u :: us') =
        buildQueriesFrom (buildStep h addrs u).1 (buildStep h addrs u).2 us' from rfl,
        hs1, hs2]
    have hlen1 : (h ++ flatMapL addrs
        (fun a => [dSet (hGet h a) u "t", dSet (hGet h a) u "f"])).length =
        h.length + 2 * addrs.length := by
      rw [List.length_append, hlenD]
    have valid1 : ∀ a ∈ seqAddrs h.length (2 * addrs.length),
        a < (h ++ flatMapL addrs
          (fun a => [dSet (hGet h a) u "t", dSet (hGet h a) u "f"])).length := by
      intro a ha
      rw [hlen1]
      exact ((mem_seqAddrs _ _ _).mp ha).2
    obtain ⟨⟨ihlen, ihget⟩, ihcont, ihvalid, ihnodup, ihlb⟩ :=
      ih (h ++ flatMapL addrs (fun a => [dSet (hGet h a) u "t", dSet (hGet h a) u "f"]))
        (seqAddrs h.length (2 * addrs.length)) valid1
    rw [hred]
    refine ⟨⟨?_, ?_⟩, ?_, ihvalid, fun _ => ihnodup (nodup_seqAddrs _ _), ?_⟩
    · calc h.length ≤ h.length + 2 * addrs.length := Nat.le_add_right _ _
        _ = _ := hlen1.symm
        _ ≤ _ := ihlen
    · intro i hi
      rw [ihget i (by rw [hlen1]; omega), hGet_append_lt h _ i hi]
    · rw [ihcont]
      rw [show (2 * addrs.length) = (flatMapL addrs
        (fun a => [dSet (hGet h a) u "t", dSet (hGet h a) u "f"])).length from hlenD.symm]
      rw [← flatMapL_map (seqAddrs h.length _) _
        (fun d => (allVecs us'.length).map (fun v => extendQ d us' v)),
        map_hGet_seqAddrs, flatMapL_assoc]
      apply flatMapL_congr
      intro a _
      show (allVecs us'.length).map (fun v => extendQ (dSet (hGet h a) u "t") us' v) ++
          ((allVecs us'.length).map (fun v => extendQ (dSet (hGet h a) u "f") us' v) ++ []) =
        (allVecs (u :: us').length).map (fun v => extendQ (hGet h a) (u :: us') v)
      rw [List.append_nil]
      show _ = (allVecs (us'.length + 1)).map (fun v => extendQ (hGet h a) (u :: us') v)
      rw [show allVecs (us'.length + 1) =
        (allVecs us'.length).map (fun v => "t" :: v) ++
        (allVecs us'.length).map (fun v => "f" :: v) from rfl]
      rw [List.map_append, List.map_map, List.map_map]
      rfl
    · intro lb hlb hlbaddrs
      refine ihlb lb ?_ ?_
      · rw [hlen1]; omega
      · intro a ha
        have := ((mem_seqAddrs _ _ _).mp ha).1
        omega

theorem buildFrom_lb (u : String) (us : List String) (h : Heap) (addrs : List Nat)
    (hv : ∀ a ∈ addrs, a < h.length) :
    ∀ a ∈ (buildQueriesFrom h addrs (u :: us)).2, h.length ≤ a := by
  obtain ⟨hs1, hs2⟩ := buildStep_spec u addrs h hv
  have hlenD : (flatMapL addrs
      (fun a => [dSet (hGet h a) u "t", dSet (hGet h a) u "f"])).length =
      2 * addrs.length := flatMapL_pair_length addrs _ _
  have hred : buildQueriesFrom h addrs (u :: us) =
      buildQueriesFrom
        (h ++ flatMapL addrs (fun a => [dSet (hGet h a) u "t", dSet (hGet h a) u "f"]))
        (seqAddrs h.length (2 * addrs.length)) us := by
    rw [show buildQueriesFrom h addrs (u :: us) =
      buildQueriesFrom (buildStep h addrs u).1 (buildStep h addrs u).2 us from rfl,
      hs1, hs2]
  have valid1 : ∀ a ∈ seqAddrs h.length (2 * addrs.length),
      a < (h ++ flatMapL addrs
        (fun a => [dSet (hGet h a) u "t", dSet (hGet h a) u "f"])).length := by
    intro a ha
    rw [List.length_append, hlenD]
    exact ((mem_seqAddrs _ _ _).mp ha).2
  obtain ⟨_, _, _, _, ihlb⟩ :=
    buildFrom_spec us
      (h ++ flatMapL addrs (fun a => [dSet (hGet h a) u "t", dSet (hGet h a) u "f"]))
      (seqAddrs h.length (2 * addrs.length)) valid1
  rw [hred]
  refine ihlb h.length (by simp) ?_
  intro a ha
  exact ((mem_seqAddrs _ _ _).mp ha).1

/-! ### Scoring helpers -/

/-- Whether an `Except` computation succeeded. -/
def isOkE {ε α : Type} : Except ε α → Bool
  | .ok _ => true
  | .error _ => false

/-- The value of a successful rational computation (0 on error). -/
def valueD {ε : Type} : Except ε ℚ → ℚ
  | .ok v => v
  | .error _ => 0

/-- Score an assignment with the target bound to the given truth value. -/
def score2 (b : BBN) (d : Dict) (tv : String) : Except PyError ℚ :=
  bbnQuery b (dSet d b.target tv)

/-- The sum, over all completions of `q` on the unknowns `us`, of the joint
score with the target bound to `tv`. -/
def sumScores (b : BBN) (q : Dict) (us : List String) (tv : String) : ℚ :=
  ((allVecs us.length).map (fun v => valueD (score2 b (extendQ q us v) tv))).sum

theorem mapCongr {α β : Type} (l : List α) (f g : α → β)
    (h : ∀ a ∈ l, f a = g a) : l.map f = l.map g := by
  induction l with
  | nil => rfl
  | cons a rest ih =>
    simp only [List.map_cons]
    rw [h a (List.mem_cons_self a rest), ih (fun x hx => h x (List.mem_cons_of_mem a hx))]

theorem foldl_mul_eq_prod : ∀ (ps : List ℚ) (p : ℚ),
    ps.foldl (fun x y => x * y) p = p * ps.prod := by
  intro ps
  induction ps with
  | nil => intro p; simp
  | cons qq rest ih =>
    intro p
    simp only [List.foldl_cons, List.prod_cons]
    rw [ih (p * qq), mul_assoc]

theorem scoreLoop_spec (b : BBN) : ∀ (addrs : List Nat) (h : Heap) (ts fs : List ℚ),
    (∀ a ∈ addrs, a < h.length) → addrs.Nodup →
    (∀ a ∈ addrs, isOkE (score2 b (hGet h a) "t") = true ∧
                  isOkE (score2 b (hGet h a) "f") = true) →
    (scoreLoop b h addrs ts fs).1 =
      .ok (ts ++ addrs.map (fun a => valueD (score2 b (hGet h a) "t")),
           fs ++ addrs.map (fun a => valueD (score2 b (hGet h a) "f"))) := by
  intro addrs
  induction addrs with
  | nil =>
    intro h ts fs _ _ _
    simp [scoreLoop]
  | cons a rest ih =>
    intro h ts fs hv hnd hok
    obtain ⟨hokt, hokf⟩ := hok a (List.mem_cons_self a rest)
    have ha : a < h.length := hv a (List.mem_cons_self a rest)
    have hanr : a ∉ rest := (List.nodup_cons.mp hnd).1
    obtain ⟨pt, hpt⟩ : ∃ pt, score2 b (hGet h a) "t" = .ok pt := by
      cases hq : score2 b (hGet h a) "t" with
      | ok v => exact ⟨v, rfl⟩
      | error e => rw [hq] at hokt; simp [isOkE] at hokt
    obtain ⟨pf, hpf⟩ : ∃ pf, score2 b (hGet h a) "f" = .ok pf := by
      cases hq : score2 b (hGet h a) "f" with
      | ok v => exact ⟨v, rfl⟩
      | error e => rw [hq] at hokf; simp [isOkE] at hokf
    have e1 : hGet (hSet h a (dSet (hGet h a) b.target "t")) a =
        dSet (hGet h a) b.target "t" := hGet_hSet_same h a _ ha
    have ha1 : a < (hSet h a (dSet (hGet h a) b.target "t")).length := by
      rw [hSet_length]; exact ha
    have e3 : dSet (dSet (hGet h a) b.target "t") b.target "f" =
        dSet (hGet h a) b.target "f" := dSet_dSet_same _ _ _ _
    have e2 : hGet (hSet (hSet h a (dSet (hGet h a) b.target "t")) a
        (dSet (hGet h a) b.target "f")) a =
        dSet (hGet h a) b.target "f" :=
      hGet_hSet_same _ a _ ha1
    simp only [scoreLoop, e1, e3, e2]
    rw [show bbnQuery b (dSet (hGet h a) b.target "t") = .ok pt from hpt,
      show bbnQuery b (dSet (hGet h a) b.target "f") = .ok pf from hpf]
    have hrest : ∀ x ∈ rest,
        hGet (hSet (hSet h a (dSet (hGet h a) b.target "t")) a
          (dSet (hGet h a) b.target "f")) x = hGet h x := by
      intro x hx
      have hax : a ≠ x := fun hh => hanr (hh ▸ hx)
      rw [hGet_hSet_ne _ a x _ hax, hGet_hSet_ne _ a x _ hax]
    have hv' : ∀ x ∈ rest, x < (hSet (hSet h a (dSet (hGet h a) b.target "t")) a
        (dSet (hGet h a) b.target "f")).length := by
      intro x hx
      rw [hSet_length, hSet_length]
      exact hv x (List.mem_cons_of_mem a hx)
    have hok' : ∀ x ∈ rest,
        isOkE (score2 b (hGet (hSet (hSet h a (dSet (hGet h a) b.target "t")) a
          (dSet (hGet h a) b.target "f")) x) "t") = true ∧
        isOkE (score2 b (hGet (hSet (hSet h a (dSet (hGet h a) b.target "t")) a
          (dSet (hGet h a) b.target "f")) x) "f") = true := by
      intro x hx
      rw [hrest x hx]
      exact hok x (List.mem_cons_of_mem a hx)
    rw [ih _ (ts ++ [pt]) (fs ++ [pf]) hv' (List.nodup_cons.mp hnd).2 hok']
    have hmt : rest.map (fun x => valueD (score2 b
        (hGet (hSet (hSet h a (dSet (hGet h a) b.target "t")) a
          (dSet (hGet h a) b.target "f")) x) "t")) =
        rest.map (fun x => valueD (score2 b (hGet h x) "t")) := by
      apply mapCongr
      intro x hx
      rw [hrest x hx]
    have hmf : rest.map (fun x => valueD (score2 b
        (hGet (hSet (hSet h a (dSet (hGet h a) b.target "t")) a
          (dSet (hGet h a) b.target "f")) x) "f")) =
        rest.map (fun x => valueD (score2 b (hGet h x) "f")) := by
      apply mapCongr
      intro x hx
      rw [hrest x hx]
    rw [hmt, hmf]
    simp [hpt, hpf, valueD]

theorem scoreLoop_heap (b : BBN) : ∀ (addrs : List Nat) (h : Heap)
    (ts fs : List ℚ) (j : Nat), j ∉ addrs →
    hGet (scoreLoop b h addrs ts fs).2 j = hGet h j := by
  intro addrs
  induction addrs with
  | nil => intro h ts fs j _; rfl
  | cons a rest ih =>
    intro h ts fs j hj
    have hja : a ≠ j := fun hh => hj (hh ▸ List.mem_cons_self a rest)
    have hjr : j ∉ rest := fun hh => hj (List.mem_cons_of_mem a hh)
    simp only [scoreLoop]
    split
    · rw [hGet_hSet_ne h a j _ hja]
    · split
      · rw [hGet_hSet_ne _ a j _ hja, hGet_hSet_ne h a j _ hja]
      · rw [ih _ _ _ j hjr, hGet_hSet_ne _ a j _ hja, hGet_hSet_ne h a j _ hja]

/-! ### The Joint Evaluator as a product of per-node factors -/

/-- The conditional-probability factor a graph entry contributes under a full
assignment: `conditionalProbability(assignment[node], [assignment[p] for p in
node.parents])`. -/
def factorOf (q : Dict) (kn : String × BBN_Node) : ℚ :=
  match joinParents q kn.2.parents, dGet q kn.1 with
  | .ok pv, some v => valueD (kn.2.get_prob v pv)
  | _, _ => 0

/-- The graph entries whose node has a non-empty parent list, in graph order. -/
def parentNodes (b : BBN) : List (String × BBN_Node) :=
  b.graph.filter (fun kn => kn.2.has_parents)

theorem collectProbs_spec (q : Dict) : ∀ (g : List (String × BBN_Node)) (fs : List ℚ),
    collectProbs q g = .ok fs →
    fs = (g.filter (fun kn => kn.2.has_parents)).map (factorOf q) := by
  intro g
  induction g with
  | nil =>
    intro fs h
    simp only [collectProbs] at h
    have : fs = [] := by
      cases h
      rfl
    rw [this]
    rfl
  | cons kn rest ih =>
    obtain ⟨label, cn⟩ := kn
    intro fs h
    by_cases hp : cn.has_parents = true
    · cases hj : joinParents q cn.parents with
      | error e => simp [collectProbs, if_pos hp, hj] at h
      | ok pv =>
        cases hvv : dGet q label with
        | none => simp [collectProbs, if_pos hp, hj, hvv] at h
        | some v =>
          cases hg : cn.get_prob v pv with
          | error e => simp [collectProbs, if_pos hp, hj, hvv, hg] at h
          | ok p =>
            cases hc : collectProbs q rest with
            | error e => simp [collectProbs, if_pos hp, hj, hvv, hg, hc] at h
            | ok ps =>
              simp only [collectProbs, if_pos hp, hj, hvv, hg, hc] at h
              have hfs : fs = p :: ps := by
                cases h
                rfl
              rw [hfs, List.filter_cons, if_pos hp, List.map_cons, ih ps hc]
              have hfac : factorOf q (label, cn) = p := by
                simp [factorOf, hj, hvv, hg, valueD]
              rw [hfac]
    · simp only [collectProbs, if_neg hp] at h
      rw [ih fs h, List.filter_cons, if_neg hp]

/-! ### Classification of the errors the scoring path can raise -/

/-- The two errors raised by the validation step of `classify`. -/
def isValidationError : PyError → Bool
  | .emptyQuery => true
  | .unknownVariable _ => true
  | _ => false

theorem joinParents_error (q : Dict) : ∀ (ps : List String) (e : PyError),
    joinParents q ps = .error e → isValidationError e = false := by
  intro ps
  induction ps with
  | nil => intro e h; exact absurd h (by simp [joinParents])
  | cons p rest ih =>
    intro e h
    simp only [joinParents] at h
    cases hd : dGet q p with
    | none =>
      rw [hd] at h
      cases h
      rfl
    | some v =>
      rw [hd] at h
      cases hr : joinParents q rest with
      | error e' =>
        rw [hr] at h
        cases h
        exact ih e hr
      | ok s => rw [hr] at h; exact absurd h (by simp)

theorem get_prob_error (n : BBN_Node) (val pv : String) (e : PyError)
    (h : n.get_prob val pv = .error e) : isValidationError e = false := by
  unfold BBN_Node.get_prob at h
  split at h
  · cases h
    rfl
  · split at h
    · cases hd : dGet n.p_table "t" with
      | none => rw [hd] at h; cases h; rfl
      | some prob => rw [hd] at h; exact absurd h (by simp)
    · cases hd : dGet n.p_table pv with
      | none => rw [hd] at h; cases h; rfl
      | some prob => rw [hd] at h; exact absurd h (by simp)

theorem collectProbs_error (q : Dict) : ∀ (g : List (String × BBN_Node)) (e : PyError),
    collectProbs q g = .error e → isValidationError e = false := by
  intro g
  induction g with
  | nil => intro e h; exact absurd h (by simp [collectProbs])
  | cons kn rest ih =>
    obtain ⟨label, cn⟩ := kn
    intro e h
    by_cases hp : cn.has_parents = true
    · cases hj : joinParents q cn.parents with
      | error e' =>
        simp only [collectProbs, if_pos hp, hj] at h
        cases h
        exact joinParents_error q cn.parents e hj
      | ok pv =>
        cases hvv : dGet q label with
        | none =>
          simp only [collectProbs, if_pos hp, hj, hvv] at h
          cases h
          rfl
        | some v =>
          cases hg : cn.get_prob v pv with
          | error e' =>
            simp only [collectProbs, if_pos hp, hj, hvv, hg] at h
            cases h
            exact get_prob_error cn v pv e hg
          | ok p =>
            cases hc : collectProbs q rest with
            | error e' =>
              simp only [collectProbs, if_pos hp, hj, hvv, hg, hc] at h
              cases h
              exact ih e hc
            | ok ps =>
              simp [collectProbs, if_pos hp, hj, hvv, hg, hc] at h
    · simp only [collectProbs, if_neg hp] at h
      exact ih e h

theorem bbnQuery_error (b : BBN) (q : Dict) (e : PyError)
    (h : bbnQuery b q = .error e) : isValidationError e = false := by
  unfold bbnQuery at h
  cases hc : collectProbs q b.graph with
  | error e' =>
    rw [hc] at h
    cases h
    exact collectProbs_error q b.graph e hc
  | ok ps =>
    rw [hc] at h
    cases ps with
    | nil =>
      cases h
      rfl
    | cons p ps' => exact absurd h (by simp)

/-! ### Validation-step lemmas -/

theorem firstUnknownVar_none_iff (b : BBN) : ∀ (q : Dict),
    firstUnknownVar b q = none ↔ ∀ kv ∈ q, (dGet b.graph kv.1).isSome = true := by
  intro q
  induction q with
  | nil => simp [firstUnknownVar]
  | cons kv rest ih =>
    obtain ⟨k, v⟩ := kv
    by_cases hs : (dGet b.graph k).isSome = true
    · simp only [firstUnknownVar, if_pos hs, ih, List.mem_cons]
      constructor
      · intro hall kv hkv
        cases hkv with
        | inl hh => rw [hh]; exact hs
        | inr hh => exact hall kv hh
      · intro hall kv hkv
        exact hall kv (Or.inr hkv)
    · simp only [firstUnknownVar, if_neg hs]
      constructor
      · intro hcon
        exact absurd hcon (by simp)
      · intro hall
        exact absurd (hall (k, v) (List.mem_cons_self _ _)) hs

theorem firstUnknownVar_some_spec (b : BBN) : ∀ (q : Dict) (k : String),
    firstUnknownVar b q = some k → (∃ v, (k, v) ∈ q) ∧ dGet b.graph k = none := by
  intro q
  induction q with
  | nil => intro k h; exact absurd h (by simp [firstUnknownVar])
  | cons kv rest ih =>
    obtain ⟨k', v'⟩ := kv
    intro k h
    by_cases hs : (dGet b.graph k').isSome = true
    · rw [show firstUnknownVar b ((k', v') :: rest) = firstUnknownVar b rest from by
        simp [firstUnknownVar, hs]] at h
      obtain ⟨⟨v, hv⟩, hn⟩ := ih k h
      exact ⟨⟨v, List.mem_cons_of_mem _ hv⟩, hn⟩
    · rw [show firstUnknownVar b ((k', v') :: rest) = some k' from by
        simp [firstUnknownVar, hs]] at h
      cases h
      refine ⟨⟨v', List.mem_cons_self _ _⟩, ?_⟩
      cases hd : dGet b.graph k'
      · rfl
      · rw [hd] at hs; simp at hs

/-! ### Dispatch lemmas for `classify` -/

theorem classify_empty (b : BBN) (h : Heap) (qa : Nat) (hq : hGet h qa = []) :
    classify b h qa = (.error .emptyQuery, h) := by
  simp [classify, hq]

theorem classify_badvar (b : BBN) (h : Heap) (qa : Nat) (k : String)
    (hq : hGet h qa ≠ []) (hk : firstUnknownVar b (hGet h qa) = some k) :
    classify b h qa = (.error (.unknownVariable k), h) := by
  simp [classify, hq, hk]

theorem classify_full (b : BBN) (h : Heap) (qa : Nat)
    (hq : hGet h qa ≠ []) (hv : firstUnknownVar b (hGet h qa) = none)
    (hu : getUnknowns b (hGet h qa) = []) :
    classify b h qa = classifyAllEvidence b h qa := by
  simp [classify, hq, hv, hu]

theorem classify_partial_path (b : BBN) (h : Heap) (qa : Nat)
    (hq : hGet h qa ≠ []) (hv : firstUnknownVar b (hGet h qa) = none)
    (hu : getUnknowns b (hGet h qa) ≠ []) :
    classify b h qa = classifyPartialEvidence b h qa (getUnknowns b (hGet h qa)) := by
  simp [classify, hq, hv, hu]

/-! ### The scoring paths only raise scoring errors -/

theorem classifyAllEvidence_error_kind (b : BBN) (h : Heap) (qa : Nat) (e : PyError)
    (hh : (classifyAllEvidence b h qa).1 = .error e) : isValidationError e = false := by
  simp only [classifyAllEvidence] at hh
  split at hh
  · rename_i e1 heq
    simp at hh
    subst hh
    exact bbnQuery_error _ _ _ heq
  · split at hh
    · rename_i e1 heq
      simp at hh
      subst hh
      exact bbnQuery_error _ _ _ heq
    · simp at hh

theorem scoreLoop_error_kind (b : BBN) : ∀ (addrs : List Nat) (h : Heap)
    (ts fs : List ℚ) (e : PyError),
    (scoreLoop b h addrs ts fs).1 = .error e → isValidationError e = false := by
  intro addrs
  induction addrs with
  | nil => intro h ts fs e hh; simp [scoreLoop] at hh
  | cons a rest ih =>
    intro h ts fs e hh
    simp only [scoreLoop] at hh
    split at hh
    · rename_i e1 heq
      simp at hh
      subst hh
      exact bbnQuery_error _ _ _ heq
    · split at hh
      · rename_i e1 heq
        simp at hh
        subst hh
        exact bbnQuery_error _ _ _ heq
      · exact ih _ _ _ e hh

theorem classifyPartialEvidence_error_kind (b : BBN) (h : Heap) (qa : Nat)
    (us : List String) (e : PyError)
    (hh : (classifyPartialEvidence b h qa us).1 = .error e) :
    isValidationError e = false := by
  simp only [classifyPartialEvidence] at hh
  split at hh
  · rename_i e1 heq
    simp at hh
    subst hh
    exact scoreLoop_error_kind b _ _ _ _ _ heq
  · simp at hh

/-! ### Auxiliary concrete networks -/

/-- A parentless node labelled `a`. -/
def aNode : BBN_Node := { p_table := [("t", 0.5)], label := "a", parents := [] }

/-- A node whose configured parent label `z` names no node of the network. -/
def xNode : BBN_Node := { p_table := [("t", 0.5)], label := "x", parents := ["z"] }

/-- A network in which node `x` references a nonexistent parent `z`. -/
def cexBBN : BBN := mkBBN [aNode, xNode] "x"

/-- A network in which no node has parents. -/
def rootBBN : BBN := mkBBN [aNode, dNode] "d"

/-! ### Claim theorems -/

/-- C5: for every node with a non-empty parent list and every parent assignment
whose key is present in the CPT, `get_prob` returns the stored probability for
value `'t'` and one minus it for value `'f'`, and the two returned values sum
to 1. -/
theorem get_prob_complement (n : BBN_Node) (pv : String) (p : ℚ)
    (hpar : n.parents ≠ []) (hkey : dGet n.p_table pv = some p) :
    n.get_prob "t" pv = .ok p ∧ n.get_prob "f" pv = .ok (1 - p) ∧
    p + (1 - p) = 1 := by
  refine ⟨?_, ?_, by ring⟩
  · simp [BBN_Node.get_prob, hpar, hkey]
  · simp [BBN_Node.get_prob, hpar, hkey]

theorem get_prob_complement_witness :
    hdNode.get_prob "t" "ft" = .ok 0.55 ∧
    hdNode.get_prob "f" "ft" = .ok (1 - 0.55) ∧
    (0.55 : ℚ) + (1 - 0.55) = 1 :=
  get_prob_complement hdNode "ft" 0.55 (by simp [hdNode]) (by rfl)

/-- C4: on the example network, the full-evidence query
`{e:f, d:t, cp:t, bp:t}` yields true-score `0.55*0.8*0.85 = 0.374` and
false-score `0.45*0.01*0.2 = 0.0009`, and `classify` returns true. -/
theorem example_full_evidence_classification :
    bbnQuery exBBN (dSet exQ4 "hd" "t") = .ok (0.55 * 0.8 * 0.85) ∧
    (0.55 * 0.8 * 0.85 : ℚ) = 0.374 ∧
    bbnQuery exBBN (dSet exQ4 "hd" "f") = .ok (0.45 * 0.01 * 0.2) ∧
    (0.45 * 0.01 * 0.2 : ℚ) = 0.0009 ∧
    (classify exBBN [exQ4] 0).1 = .ok true := by
  refine ⟨?_, by norm_num, ?_, by norm_num, ?_⟩
  · simp [bbnQuery, collectProbs, joinParents, BBN_Node.get_prob,
      BBN_Node.has_parents, dGet, dSet, exBBN, mkBBN, eNode, dNode, hdNode,
      cpNode, bpNode, exQ4] <;> norm_num
  · simp [bbnQuery, collectProbs, joinParents, BBN_Node.get_prob,
      BBN_Node.has_parents, dGet, dSet, exBBN, mkBBN, eNode, dNode, hdNode,
      cpNode, bpNode, exQ4] <;> norm_num
  · simp [classify, classifyAllEvidence, bbnQuery, collectProbs, joinParents,
      BBN_Node.get_prob, BBN_Node.has_parents, getUnknowns, firstUnknownVar,
      hGet, hSet, dGet, dSet, exBBN, mkBBN, eNode, dNode, hdNode, cpNode,
      bpNode, exQ4] <;> norm_num

/-- C8 counterexample: the node `hd` has parents, and called with an empty
parent assignment `get_prob` does not fail with the arity error
(`BadQueryError('Node ... has no parents')`); it fails with the missing-key
error for the empty key instead. -/
theorem invalid_parent_arity_cex :
    hdNode.get_prob "t" "" = .error (.keyError "") ∧
    hdNode.get_prob "t" "" ≠ .error (.badQueryNoParents "hd") := by
  constructor
  · rfl
  · intro hcon
    exact absurd (rfl.trans hcon) (by decide)

/-- C8 amended: a parentless node given a non-empty parent assignment fails
with the arity error; a node with parents given an empty parent assignment
instead looks up the empty key and fails with the missing-key error when that
key is absent. -/
theorem invalid_parent_arity_amended (n : BBN_Node) (val pv : String) :
    (n.parents = [] → pv ≠ "" → n.get_prob val pv = .error (.badQueryNoParents n.label)) ∧
    (n.parents ≠ [] → dGet n.p_table pv = none → n.get_prob val pv = .error (.keyError pv)) := by
  constructor
  · intro h1 h2
    simp [BBN_Node.get_prob, h1, h2]
  · intro h1 h2
    simp [BBN_Node.get_prob, h1, h2]

theorem invalid_parent_arity_amended_witness :
    eNode.get_prob "t" "x" = .error (.badQueryNoParents "e") :=
  (invalid_parent_arity_amended eNode "t" "x").1 (by rfl) (by decide)

theorem collectProbs_allroot (q : Dict) : ∀ (g : List (String × BBN_Node)),
    (∀ kv ∈ g, kv.2.parents = ([] : List String)) →
    collectProbs q g = .ok [] := by
  intro g
  induction g with
  | nil => intro _; rfl
  | cons kn rest ih =>
    obtain ⟨label, cn⟩ := kn
    intro hall
    have hp : cn.has_parents = false := by
      have h0 : cn.parents = [] := hall (label, cn) (List.mem_cons_self _ _)
      simp [BBN_Node.has_parents, h0]
    rw [show collectProbs q ((label, cn) :: rest) = collectProbs q rest from by
      simp [collectProbs, hp]]
    exact ih (fun kv hkv => hall kv (List.mem_cons_of_mem _ hkv))

theorem bbnQuery_allroot (b : BBN)
    (hroot : ∀ kv ∈ b.graph, kv.2.parents = ([] : List String)) (q : Dict) :
    bbnQuery b q = .error .typeErrorEmptyReduce := by
  simp [bbnQuery, collectProbs_allroot q b.graph hroot]

theorem allVecs_ne_nil (n : Nat) : allVecs n ≠ [] := by
  intro hcon
  have hl := length_allVecs n
  rw [hcon] at hl
  have hp : 0 < 2 ^ n := by positivity
  rw [← hl] at hp
  exact absurd hp (by simp)

/-- C10: on a network in which no node has parents, every `classify` call that
passes the empty-query and unknown-variable checks fails with the
empty-`reduce` error (the Joint Evaluator reduces an empty list of factors)
instead of returning a boolean. -/
theorem allroot_classify_fails (b : BBN) (h : Heap) (qa : Nat)
    (hroot : ∀ kv ∈ b.graph, kv.2.parents = ([] : List String))
    (hne : hGet h qa ≠ [])
    (hfv : firstUnknownVar b (hGet h qa) = none) :
    (classify b h qa).1 = .error .typeErrorEmptyReduce := by
  have hlt : qa < h.length := lt_length_of_hGet_ne_nil h qa hne
  by_cases hu : getUnknowns b (hGet h qa) = []
  · rw [classify_full b h qa hne hfv hu]
    simp only [classifyAllEvidence, bbnQuery_allroot b hroot]
  · rw [classify_partial_path b h qa hne hfv hu]
    obtain ⟨u, us', hus⟩ : ∃ u us', getUnknowns b (hGet h qa) = u :: us' := by
      cases hx : getUnknowns b (hGet h qa) with
      | nil => exact absurd hx hu
      | cons u us' => exact ⟨u, us', rfl⟩
    rw [hus]
    have hv0 : ∀ a ∈ [qa], a < h.length := by
      intro a ha
      have haq : a = qa := by simpa using ha
      rw [haq]; exact hlt
    obtain ⟨_, hcont, _, _, _⟩ := buildFrom_spec (u :: us') h [qa] hv0
    have hnonnil : (buildQueriesFrom h [qa] (u :: us')).2 ≠ [] := by
      intro hx
      rw [hx] at hcont
      have hrhs := hcont.symm
      simp only [flatMapL, List.map_nil, List.append_nil] at hrhs
      exact absurd (List.map_eq_nil.mp hrhs) (allVecs_ne_nil _)
    obtain ⟨a0, rest0, haddr⟩ := List.exists_cons_of_ne_nil hnonnil
    simp only [classifyPartialEvidence, buildQueries, haddr, scoreLoop,
      bbnQuery_allroot b hroot]

theorem allroot_classify_fails_witness :
    (classify rootBBN [[("a", "t")]] 0).1 = .error .typeErrorEmptyReduce :=
  allroot_classify_fails rootBBN [[("a", "t")]] 0 (by decide) (by decide) (by decide)

/-- C3: the Enumeration Engine returns exactly 2^k completions, namely the
base query extended by each of the 2^k distinct truth assignments over the k
unknowns (in doubling order), at pairwise distinct fresh addresses — so
mutating one completion, e.g. adding the target binding, does not affect any
other — and for k = 0 it returns exactly one mapping. -/
theorem build_queries_spec (h : Heap) (qa : Nat) (us : List String)
    (hqa : qa < h.length) :
    (buildQueries h qa us).2.length = 2 ^ us.length ∧
    (buildQueries h qa us).2.map (hGet (buildQueries h qa us).1) =
      (allVecs us.length).map (fun v => extendQ (hGet h qa) us v) ∧
    (allVecs us.length).Nodup ∧
    (buildQueries h qa us).2.Nodup ∧
    (∀ a ∈ (buildQueries h qa us).2, ∀ a' ∈ (buildQueries h qa us).2, a ≠ a' →
      ∀ d, hGet (hSet (buildQueries h qa us).1 a d) a' =
        hGet (buildQueries h qa us).1 a') ∧
    (us = [] → (buildQueries h qa us).2 = [qa]) := by
  have hv0 : ∀ a ∈ [qa], a < h.length := by
    intro a ha
    have haq : a = qa := by simpa using ha
    rw [haq]; exact hqa
  obtain ⟨_, hcont, _, hnodup, _⟩ := buildFrom_spec us h [qa] hv0
  have hcont' : (buildQueries h qa us).2.map (hGet (buildQueries h qa us).1) =
      (allVecs us.length).map (fun v => extendQ (hGet h qa) us v) := by
    rw [show buildQueries h qa us = buildQueriesFrom h [qa] us from rfl, hcont]
    simp [flatMapL]
  refine ⟨?_, hcont', nodup_allVecs _, hnodup (by simp), ?_, ?_⟩
  · have hl := congrArg List.length hcont'
    simpa [length_allVecs] using hl
  · intro a _ a' _ hne d
    exact hGet_hSet_ne _ a a' d hne
  · intro hnil
    rw [hnil]
    rfl

theorem build_queries_spec_witness :
    (buildQueries [exQ3] 0 ["x", "y"]).2.length = 2 ^ 2 :=
  (build_queries_spec [exQ3] 0 ["x", "y"] (by decide)).1

/-- C2: whenever the Joint Evaluator succeeds on a fully-bound assignment, its
score equals the product, over exactly those graph entries whose node has a
non-empty parent list, of the node's conditional probability of its assigned
value given its parents' assigned values; parentless nodes contribute no
factor. -/
theorem joint_evaluator_product (b : BBN) (q : Dict) (r : ℚ)
    (hok : bbnQuery b q = .ok r) :
    r = ((parentNodes b).map (factorOf q)).prod := by
  cases hc : collectProbs q b.graph with
  | error e =>
    rw [show bbnQuery b q = .error e from by simp [bbnQuery, hc]] at hok
    exact absurd hok (by simp)
  | ok fs =>
    cases fs with
    | nil =>
      rw [show bbnQuery b q = .error .typeErrorEmptyReduce from by
        simp [bbnQuery, hc]] at hok
      exact absurd hok (by simp)
    | cons p ps =>
      rw [show bbnQuery b q = .ok (ps.foldl (fun x y => x * y) p) from by
        simp [bbnQuery, hc]] at hok
      have hsp := collectProbs_spec q b.graph (p :: ps) hc
      rw [← Except.ok.inj hok, foldl_mul_eq_prod,
        show parentNodes b = b.graph.filter (fun kn => kn.2.has_parents) from rfl,
        ← hsp, List.prod_cons]

theorem joint_evaluator_product_witness :
    (0.374 : ℚ) = ((parentNodes exBBN).map (factorOf (dSet exQ4 "hd" "t"))).prod :=
  joint_evaluator_product exBBN (dSet exQ4 "hd" "t") 0.374 (by
    simp [bbnQuery, collectProbs, joinParents, BBN_Node.get_prob,
      BBN_Node.has_parents, dGet, dSet, exBBN, mkBBN, eNode, dNode, hdNode,
      cpNode, bpNode, exQ4] <;> norm_num)

theorem except_cases {ε α : Type} (x : Except ε α) :
    (∃ v, x = .ok v) ∨ (∃ e, x = .error e) := by
  cases x with
  | ok v => exact Or.inl ⟨v, rfl⟩
  | error e => exact Or.inr ⟨e, rfl⟩

theorem classifyAllEvidence_err1 (b : BBN) (h : Heap) (qa : Nat)
    (hlt : qa < h.length) (e : PyError)
    (hq1 : bbnQuery b (dSet (hGet h qa) b.target "t") = .error e) :
    classifyAllEvidence b h qa =
      (.error e, hSet h qa (dSet (hGet h qa) b.target "t")) := by
  have e1 : hGet (hSet h qa (dSet (hGet h qa) b.target "t")) qa =
      dSet (hGet h qa) b.target "t" := hGet_hSet_same h qa _ hlt
  simp only [classifyAllEvidence, e1, hq1]

theorem classifyAllEvidence_err2 (b : BBN) (h : Heap) (qa : Nat)
    (hlt : qa < h.length) (yes : ℚ) (e : PyError)
    (hq1 : bbnQuery b (dSet (hGet h qa) b.target "t") = .ok yes)
    (hq2 : bbnQuery b (dSet (hGet h qa) b.target "f") = .error e) :
    classifyAllEvidence b h qa =
      (.error e, hSet (hSet h qa (dSet (hGet h qa) b.target "t")) qa
        (dSet (hGet h qa) b.target "f")) := by
  have e1 : hGet (hSet h qa (dSet (hGet h qa) b.target "t")) qa =
      dSet (hGet h qa) b.target "t" := hGet_hSet_same h qa _ hlt
  have e3 : dSet (dSet (hGet h qa) b.target "t") b.target "f" =
      dSet (hGet h qa) b.target "f" := dSet_dSet_same _ _ _ _
  have ha1 : qa < (hSet h qa (dSet (hGet h qa) b.target "t")).length := by
    rw [hSet_length]; exact hlt
  have e2 : hGet (hSet (hSet h qa (dSet (hGet h qa) b.target "t")) qa
      (dSet (hGet h qa) b.target "f")) qa =
      dSet (hGet h qa) b.target "f" := hGet_hSet_same _ qa _ ha1
  simp only [classifyAllEvidence, e1, e3, e2, hq1, hq2]

theorem classifyAllEvidence_ok (b : BBN) (h : Heap) (qa : Nat)
    (hlt : qa < h.length) (yes no : ℚ)
    (hq1 : bbnQuery b (dSet (hGet h qa) b.target "t") = .ok yes)
    (hq2 : bbnQuery b (dSet (hGet h qa) b.target "f") = .ok no) :
    classifyAllEvidence b h qa =
      (.ok (decide (no < yes)),
       hSet (hSet h qa (dSet (hGet h qa) b.target "t")) qa
         (dSet (hGet h qa) b.target "f")) := by
  have e1 : hGet (hSet h qa (dSet (hGet h qa) b.target "t")) qa =
      dSet (hGet h qa) b.target "t" := hGet_hSet_same h qa _ hlt
  have e3 : dSet (dSet (hGet h qa) b.target "t") b.target "f" =
      dSet (hGet h qa) b.target "f" := dSet_dSet_same _ _ _ _
  have ha1 : qa < (hSet h qa (dSet (hGet h qa) b.target "t")).length := by
    rw [hSet_length]; exact hlt
  have e2 : hGet (hSet (hSet h qa (dSet (hGet h qa) b.target "t")) qa
      (dSet (hGet h qa) b.target "f")) qa =
      dSet (hGet h qa) b.target "f" := hGet_hSet_same _ qa _ ha1
  simp only [classifyAllEvidence, e1, e3, e2, hq1, hq2]

/-- C9: on the full-evidence path `classify` mutates the caller's query
dictionary in place — after a normal return, the dictionary at the caller's
address holds the target label bound to `'f'` — while on the partial-evidence
path the caller's dictionary is left unchanged, because the completions are
freshly allocated deep copies. -/
theorem classify_mutation (b : BBN) (h : Heap) (qa : Nat)
    (hne : hGet h qa ≠ [])
    (hfv : firstUnknownVar b (hGet h qa) = none) :
    (getUnknowns b (hGet h qa) = [] →
      ∀ r, (classify b h qa).1 = .ok r →
        hGet (classify b h qa).2 qa = dSet (hGet h qa) b.target "f" ∧
        dGet (hGet (classify b h qa).2 qa) b.target = some "f") ∧
    (getUnknowns b (hGet h qa) ≠ [] →
      hGet (classify b h qa).2 qa = hGet h qa) := by
  have hlt : qa < h.length := lt_length_of_hGet_ne_nil h qa hne
  have ha1 : qa < (hSet h qa (dSet (hGet h qa) b.target "t")).length := by
    rw [hSet_length]; exact hlt
  constructor
  · intro hu r hr
    rw [classify_full b h qa hne hfv hu] at hr ⊢
    rcases except_cases (bbnQuery b (dSet (hGet h qa) b.target "t")) with
      ⟨yes, hq1⟩ | ⟨e, hq1⟩
    · rcases except_cases (bbnQuery b (dSet (hGet h qa) b.target "f")) with
        ⟨no, hq2⟩ | ⟨e, hq2⟩
      · rw [classifyAllEvidence_ok b h qa hlt yes no hq1 hq2]
        refine ⟨hGet_hSet_same _ qa _ ha1, ?_⟩
        rw [hGet_hSet_same _ qa _ ha1]
        exact dGet_dSet_same _ _ _
      · rw [classifyAllEvidence_err2 b h qa hlt yes e hq1 hq2] at hr
        simp at hr
    · rw [classifyAllEvidence_err1 b h qa hlt e hq1] at hr
      simp at hr
  · intro hu
    rw [classify_partial_path b h qa hne hfv hu]
    obtain ⟨u, us', hus⟩ : ∃ u us', getUnknowns b (hGet h qa) = u :: us' := by
      cases hx : getUnknowns b (hGet h qa) with
      | nil => exact absurd hx hu
      | cons u us' => exact ⟨u, us', rfl⟩
    rw [hus]
    have hv0 : ∀ a ∈ [qa], a < h.length := by
      intro a ha
      have haq : a = qa := by simpa using ha
      rw [haq]; exact hlt
    have hlb := buildFrom_lb u us' h [qa] hv0
    have hnm : qa ∉ (buildQueriesFrom h [qa] (u :: us')).2 := by
      intro hmem
      have := hlb qa hmem
      omega
    obtain ⟨⟨_, hext⟩, _, _, _, _⟩ := buildFrom_spec (u :: us') h [qa] hv0
    show hGet (classifyPartialEvidence b h qa (u :: us')).2 qa = hGet h qa
    have h2eq : (classifyPartialEvidence b h qa (u :: us')).2 =
        (scoreLoop b (buildQueriesFrom h [qa] (u :: us')).1
          (buildQueriesFrom h [qa] (u :: us')).2 [] []).2 := rfl
    rw [h2eq, scoreLoop_heap b _ _ _ _ qa hnm]
    exact hext qa hlt

theorem classify_mutation_witness :
    hGet (classify exBBN [exQ4] 0).2 0 = dSet exQ4 "hd" "f" ∧
    hGet (classify exBBN [exQ3] 0).2 0 = exQ3 := by
  have hok4 : (classify exBBN [exQ4] 0).1 = .ok true := by
    simp [classify, classifyAllEvidence, bbnQuery, collectProbs, joinParents,
      BBN_Node.get_prob, BBN_Node.has_parents, getUnknowns, firstUnknownVar,
      hGet, hSet, dGet, dSet, exBBN, mkBBN, eNode, dNode, hdNode, cpNode,
      bpNode, exQ4] <;> norm_num
  constructor
  · exact ((classify_mutation exBBN [exQ4] 0 (by decide) (by decide)).1
      (by decide) true hok4).1
  · exact (classify_mutation exBBN [exQ3] 0 (by decide) (by decide)).2 (by decide)

/-- C1: for every network and query that passes validation and leaves a
non-empty list of unknowns, when each of the 2^k completions scores
successfully with the target bound each way, `classify` returns true exactly
when the sum over all completions of the true-bound joint scores strictly
exceeds the sum of the false-bound joint scores (so a tie yields false). -/
theorem classify_partial_sums (b : BBN) (h : Heap) (qa : Nat)
    (hne : hGet h qa ≠ [])
    (hval : ∀ kv ∈ hGet h qa, (dGet b.graph kv.1).isSome = true)
    (hus : getUnknowns b (hGet h qa) ≠ [])
    (hoks : ∀ v ∈ allVecs (getUnknowns b (hGet h qa)).length,
      isOkE (score2 b (extendQ (hGet h qa) (getUnknowns b (hGet h qa)) v) "t") = true ∧
      isOkE (score2 b (extendQ (hGet h qa) (getUnknowns b (hGet h qa)) v) "f") = true) :
    (classify b h qa).1 =
      .ok (decide (sumScores b (hGet h qa) (getUnknowns b (hGet h qa)) "f" <
                   sumScores b (hGet h qa) (getUnknowns b (hGet h qa)) "t")) := by
  have hlt : qa < h.length := lt_length_of_hGet_ne_nil h qa hne
  have hfv : firstUnknownVar b (hGet h qa) = none :=
    (firstUnknownVar_none_iff b (hGet h qa)).mpr hval
  rw [classify_partial_path b h qa hne hfv hus]
  have hv0 : ∀ a ∈ [qa], a < h.length := by
    intro a ha
    have haq : a = qa := by simpa using ha
    rw [haq]; exact hlt
  obtain ⟨_, hcont, hvalid, hnodup, _⟩ :=
    buildFrom_spec (getUnknowns b (hGet h qa)) h [qa] hv0
  have hcont' : (buildQueriesFrom h [qa] (getUnknowns b (hGet h qa))).2.map
      (hGet (buildQueriesFrom h [qa] (getUnknowns b (hGet h qa))).1) =
      (allVecs (getUnknowns b (hGet h qa)).length).map
        (fun v => extendQ (hGet h qa) (getUnknowns b (hGet h qa)) v) := by
    rw [hcont]
    simp [flatMapL]
  have hoks' : ∀ a ∈ (buildQueriesFrom h [qa] (getUnknowns b (hGet h qa))).2,
      isOkE (score2 b (hGet (buildQueriesFrom h [qa]
        (getUnknowns b (hGet h qa))).1 a) "t") = true ∧
      isOkE (score2 b (hGet (buildQueriesFrom h [qa]
        (getUnknowns b (hGet h qa))).1 a) "f") = true := by
    intro a ha
    have hmem : hGet (buildQueriesFrom h [qa] (getUnknowns b (hGet h qa))).1 a ∈
        (buildQueriesFrom h [qa] (getUnknowns b (hGet h qa))).2.map
          (hGet (buildQueriesFrom h [qa] (getUnknowns b (hGet h qa))).1) :=
      List.mem_map_of_mem _ ha
    rw [hcont'] at hmem
    obtain ⟨v, hv, heq⟩ := List.mem_map.mp hmem
    rw [← heq]
    exact hoks v hv
  have hloop := scoreLoop_spec b (buildQueriesFrom h [qa]
      (getUnknowns b (hGet h qa))).2
    (buildQueriesFrom h [qa] (getUnknowns b (hGet h qa))).1 [] []
    hvalid (hnodup (by simp)) hoks'
  have h1eq : (classifyPartialEvidence b h qa (getUnknowns b (hGet h qa))).1 =
      (match (scoreLoop b (buildQueriesFrom h [qa] (getUnknowns b (hGet h qa))).1
        (buildQueriesFrom h [qa] (getUnknowns b (hGet h qa))).2 [] []).1 with
       | .error e => (.error e : Except PyError Bool)
       | .ok (ts, fs) => .ok (decide (fs.sum < ts.sum))) := rfl
  rw [h1eq, hloop]
  simp only [List.nil_append]
  have hT : (buildQueriesFrom h [qa] (getUnknowns b (hGet h qa))).2.map
      (fun a => valueD (score2 b (hGet (buildQueriesFrom h [qa]
        (getUnknowns b (hGet h qa))).1 a) "t")) =
      (allVecs (getUnknowns b (hGet h qa)).length).map
        (fun v => valueD (score2 b (extendQ (hGet h qa)
          (getUnknowns b (hGet h qa)) v) "t")) := by
    rw [show (fun a => valueD (score2 b (hGet (buildQueriesFrom h [qa]
        (getUnknowns b (hGet h qa))).1 a) "t")) =
      ((fun d => valueD (score2 b d "t")) ∘
        (hGet (buildQueriesFrom h [qa] (getUnknowns b (hGet h qa))).1)) from rfl,
      ← List.map_map, hcont', List.map_map]
    rfl
  have hF : (buildQueriesFrom h [qa] (getUnknowns b (hGet h qa))).2.map
      (fun a => valueD (score2 b (hGet (buildQueriesFrom h [qa]
        (getUnknowns b (hGet h qa))).1 a) "f")) =
      (allVecs (getUnknowns b (hGet h qa)).length).map
        (fun v => valueD (score2 b (extendQ (hGet h qa)
          (getUnknowns b (hGet h qa)) v) "f")) := by
    rw [show (fun a => valueD (score2 b (hGet (buildQueriesFrom h [qa]
        (getUnknowns b (hGet h qa))).1 a) "f")) =
      ((fun d => valueD (score2 b d "f")) ∘
        (hGet (buildQueriesFrom h [qa] (getUnknowns b (hGet h qa))).1)) from rfl,
      ← List.map_map, hcont', List.map_map]
    rfl
  rw [hT, hF]
  rfl

theorem classify_partial_sums_witness :
    (classify exBBN [exQ3] 0).1 =
      .ok (decide (sumScores exBBN (hGet [exQ3] 0)
          (getUnknowns exBBN (hGet [exQ3] 0)) "f" <
        sumScores exBBN (hGet [exQ3] 0)
          (getUnknowns exBBN (hGet [exQ3] 0)) "t")) :=
  classify_partial_sums exBBN [exQ3] 0 (by decide) (by decide) (by decide)
    (by decide)

/-- C6 counterexample: in a network whose node `x` has configured parent `z`
that names no node, a validated full-evidence query makes `classify` fail
during scoring with `KeyError('z')`, not with the `UnknownVariable`
validation error and not with `EmptyQuery`. -/
theorem classify_validation_cex :
    (classify cexBBN [[("a", "t")]] 0).1 = .error (.keyError "z") ∧
    (classify cexBBN [[("a", "t")]] 0).1 ≠ .error (.unknownVariable "z") ∧
    (classify cexBBN [[("a", "t")]] 0).1 ≠ .error .emptyQuery := by
  refine ⟨?_, ?_, ?_⟩ <;> decide

/-- C6 amended: `classify` fails with `EmptyQuery` exactly when the query is
empty, and fails with `UnknownVariable` exactly when the (non-empty) query has
a key that is not a network label; both checks happen before any scoring or
enumeration, the heap being returned untouched. A configured parent label
absent from the network is not caught by this validation. -/
theorem classify_validation_amended (b : BBN) (h : Heap) (qa : Nat) :
    ((classify b h qa).1 = .error .emptyQuery ↔ hGet h qa = []) ∧
    ((∃ k, (classify b h qa).1 = .error (.unknownVariable k)) ↔
      (hGet h qa ≠ [] ∧ ∃ kv ∈ hGet h qa, dGet b.graph kv.1 = none)) ∧
    ((hGet h qa = [] ∨ ∃ kv ∈ hGet h qa, dGet b.graph kv.1 = none) →
      (classify b h qa).2 = h) := by
  by_cases hq : hGet h qa = []
  · rw [classify_empty b h qa hq]
    refine ⟨by simp [hq], ?_, fun _ => rfl⟩
    constructor
    · rintro ⟨k, hk⟩
      exact absurd hk (by simp)
    · rintro ⟨hne, _⟩
      exact absurd hq hne
  · cases hfv : firstUnknownVar b (hGet h qa) with
    | some k =>
      rw [classify_badvar b h qa k hq hfv]
      obtain ⟨⟨v, hvmem⟩, hnone⟩ := firstUnknownVar_some_spec b (hGet h qa) k hfv
      refine ⟨by simp [hq], ?_, fun _ => rfl⟩
      constructor
      · intro _
        exact ⟨hq, ⟨(k, v), hvmem, hnone⟩⟩
      · intro _
        exact ⟨k, rfl⟩
    | none =>
      have hkind : ∀ e, (classify b h qa).1 = .error e → isValidationError e = false := by
        intro e he
        by_cases hu : getUnknowns b (hGet h qa) = []
        · rw [classify_full b h qa hq hfv hu] at he
          exact classifyAllEvidence_error_kind b h qa e he
        · rw [classify_partial_path b h qa hq hfv hu] at he
          exact classifyPartialEvidence_error_kind b h qa _ e he
      have hnobad : ∀ kv ∈ hGet h qa, dGet b.graph kv.1 ≠ none := by
        intro kv hkv hcon
        have hall := (firstUnknownVar_none_iff b (hGet h qa)).mp hfv kv hkv
        rw [hcon] at hall
        simp at hall
      refine ⟨?_, ?_, ?_⟩
      · constructor
        · intro hcon
          have hx := hkind _ hcon
          simp [isValidationError] at hx
        · intro hcon
          exact absurd hcon hq
      · constructor
        · rintro ⟨k, hk⟩
          have hx := hkind _ hk
          simp [isValidationError] at hx
        · rintro ⟨_, kv, hkv, hnone⟩
          exact absurd hnone (hnobad kv hkv)
      · intro hcase
        cases hcase with
        | inl hl => exact absurd hl hq
        | inr hrr =>
          obtain ⟨kv, hkv, hnone⟩ := hrr
          exact absurd hnone (hnobad kv hkv)

theorem classify_validation_amended_witness :
    (classify exBBN [[]] 0).1 = .error .emptyQuery ∧
    (classify exBBN [[]] 0).2 = [[]] :=
  ⟨(classify_validation_amended exBBN [[]] 0).1.mpr rfl,
   (classify_validation_amended exBBN [[]] 0).2.2 (Or.inl rfl)⟩

/-! ### Propagation of the first scoring error through the loops -/

theorem map_eq_append_cons {α β : Type} (f : α → β) :
    ∀ (l : List α) (xs : List β) (y : β) (ys : List β),
    l.map f = xs ++ y :: ys →
    ∃ l1 a l2, l = l1 ++ a :: l2 ∧ l1.map f = xs ∧ f a = y ∧ l2.map f = ys := by
  intro l
  induction l with
  | nil =>
    intro xs y ys hmap
    cases xs <;> simp at hmap
  | cons a rest ih =>
    intro xs y ys hmap
    cases xs with
    | nil =>
      simp at hmap
      exact ⟨[], a, rest, by simp, rfl, hmap.1, hmap.2⟩
    | cons x xs' =>
      simp at hmap
      obtain ⟨l1, c, l2, hsplit, hm1, hfc, hm2⟩ := ih xs' y ys hmap.2
      exact ⟨a :: l1, c, l2, by rw [hsplit, List.cons_append], by simp [hmap.1, hm1],
        hfc, hm2⟩

theorem scoreLoop_propagates (b : BBN) (e : PyError) : ∀ (a1 : List Nat) (a : Nat)
    (a2 : List Nat) (h : Heap) (ts fs : List ℚ),
    (∀ x ∈ a1 ++ a :: a2, x < h.length) → (a1 ++ a :: a2).Nodup →
    (∀ x ∈ a1, isOkE (score2 b (hGet h x) "t") = true ∧
               isOkE (score2 b (hGet h x) "f") = true) →
    (score2 b (hGet h a) "t" = .error e ∨
      (∃ pt, score2 b (hGet h a) "t" = .ok pt ∧
             score2 b (hGet h a) "f" = .error e)) →
    (scoreLoop b h (a1 ++ a :: a2) ts fs).1 = .error e := by
  intro a1
  induction a1 with
  | nil =>
    intro a a2 h ts fs hv _ _ herr
    have ha : a < h.length := hv a (by simp)
    have e1 : hGet (hSet h a (dSet (hGet h a) b.target "t")) a =
        dSet (hGet h a) b.target "t" := hGet_hSet_same h a _ ha
    have e3 : dSet (dSet (hGet h a) b.target "t") b.target "f" =
        dSet (hGet h a) b.target "f" := dSet_dSet_same _ _ _ _
    have ha1 : a < (hSet h a (dSet (hGet h a) b.target "t")).length := by
      rw [hSet_length]; exact ha
    have e2 : hGet (hSet (hSet h a (dSet (hGet h a) b.target "t")) a
        (dSet (hGet h a) b.target "f")) a =
        dSet (hGet h a) b.target "f" := hGet_hSet_same _ a _ ha1
    cases herr with
    | inl h1 =>
      have h1' : bbnQuery b (dSet (hGet h a) b.target "t") = .error e := h1
      simp only [List.nil_append, scoreLoop, e1, h1']
    | inr h2 =>
      obtain ⟨pt, hpt, hpf⟩ := h2
      have hpt' : bbnQuery b (dSet (hGet h a) b.target "t") = .ok pt := hpt
      have hpf' : bbnQuery b (dSet (hGet h a) b.target "f") = .error e := hpf
      simp only [List.nil_append, scoreLoop, e1, e3, e2, hpt', hpf']
  | cons x rest ih =>
    intro a a2 h ts fs hv hnd hok1 herr
    obtain ⟨hokt, hokf⟩ := hok1 x (List.mem_cons_self x rest)
    have hx : x < h.length := hv x (by simp)
    have hnd' : (x :: (rest ++ a :: a2)).Nodup := by simpa using hnd
    have hxnr : x ∉ rest ++ a :: a2 := (List.nodup_cons.mp hnd').1
    obtain ⟨pt, hpt⟩ : ∃ pt, score2 b (hGet h x) "t" = .ok pt := by
      cases hq : score2 b (hGet h x) "t" with
      | ok v => exact ⟨v, rfl⟩
      | error ee => rw [hq] at hokt; simp [isOkE] at hokt
    obtain ⟨pf, hpf⟩ : ∃ pf, score2 b (hGet h x) "f" = .ok pf := by
      cases hq : score2 b (hGet h x) "f" with
      | ok v => exact ⟨v, rfl⟩
      | error ee => rw [hq] at hokf; simp [isOkE] at hokf
    have e1 : hGet (hSet h x (dSet (hGet h x) b.target "t")) x =
        dSet (hGet h x) b.target "t" := hGet_hSet_same h x _ hx
    have e3 : dSet (dSet (hGet h x) b.target "t") b.target "f" =
        dSet (hGet h x) b.target "f" := dSet_dSet_same _ _ _ _
    have hx1 : x < (hSet h x (dSet (hGet h x) b.target "t")).length := by
      rw [hSet_length]; exact hx
    have e2 : hGet (hSet (hSet h x (dSet (hGet h x) b.target "t")) x
        (dSet (hGet h x) b.target "f")) x =
        dSet (hGet h x) b.target "f" := hGet_hSet_same _ x _ hx1
    simp only [List.cons_append, scoreLoop, e1, e3, e2]
    rw [show bbnQuery b (dSet (hGet h x) b.target "t") = .ok pt from hpt,
      show bbnQuery b (dSet (hGet h x) b.target "f") = .ok pf from hpf]
    have hrest : ∀ y ∈ rest ++ a :: a2,
        hGet (hSet (hSet h x (dSet (hGet h x) b.target "t")) x
          (dSet (hGet h x) b.target "f")) y = hGet h y := by
      intro y hy
      have hxy : x ≠ y := fun hh => hxnr (hh ▸ hy)
      rw [hGet_hSet_ne _ x y _ hxy, hGet_hSet_ne h x y _ hxy]
    have hv' : ∀ y ∈ rest ++ a :: a2,
        y < (hSet (hSet h x (dSet (hGet h x) b.target "t")) x
          (dSet (hGet h x) b.target "f")).length := by
      intro y hy
      rw [hSet_length, hSet_length]
      refine hv y ?_
      simp only [List.cons_append, List.mem_cons]
      exact Or.inr hy
    have hok1' : ∀ y ∈ rest,
        isOkE (score2 b (hGet (hSet (hSet h x (dSet (hGet h x) b.target "t")) x
          (dSet (hGet h x) b.target "f")) y) "t") = true ∧
        isOkE (score2 b (hGet (hSet (hSet h x (dSet (hGet h x) b.target "t")) x
          (dSet (hGet h x) b.target "f")) y) "f") = true := by
      intro y hy
      rw [hrest y (List.mem_append_left _ hy)]
      exact hok1 y (List.mem_cons_of_mem x hy)
    have herr' : score2 b (hGet (hSet (hSet h x (dSet (hGet h x) b.target "t")) x
          (dSet (hGet h x) b.target "f")) a) "t" = .error e ∨
        (∃ pt2, score2 b (hGet (hSet (hSet h x (dSet (hGet h x) b.target "t")) x
          (dSet (hGet h x) b.target "f")) a) "t" = .ok pt2 ∧
          score2 b (hGet (hSet (hSet h x (dSet (hGet h x) b.target "t")) x
            (dSet (hGet h x) b.target "f")) a) "f" = .error e) := by
      have haa : a ∈ rest ++ a :: a2 := by simp
      rw [hrest a haa]
      exact herr
    exact ih a a2 _ (ts ++ [pt]) (fs ++ [pf]) hv' (List.nodup_cons.mp hnd').2
      hok1' herr'

/-! ### Networks whose scoring hits a missing CPT entry -/

/-- A node with parent `a` whose CPT holds only the `'t'` key. -/
def mNode : BBN_Node := { p_table := [("t", 0.3)], label := "y", parents := ["a"] }

/-- A network where the first (target-true) scoring call hits a missing key. -/
def mBBN : BBN := mkBBN [aNode, mNode] "y"

/-- A parentless node labelled `w`. -/
def wNode : BBN_Node := { p_table := [("t", 0.5)], label := "w", parents := [] }

/-- A child of `w` whose CPT holds only the `'t'` key. -/
def cNode : BBN_Node := { p_table := [("t", 0.2)], label := "c", parents := ["w"] }

/-- A network where only the second (target-false) scoring call hits a missing
key, the first call having succeeded. -/
def cBBN : BBN := mkBBN [wNode, cNode] "w"

/-- A parentless node labelled `u`. -/
def uNode : BBN_Node := { p_table := [("t", 0.5)], label := "u", parents := [] }

/-- A node with parents `[a, u]` whose CPT holds only the `'tt'` key. -/
def yNode : BBN_Node := { p_table := [("tt", 0.3)], label := "y", parents := ["a", "u"] }

/-- A network where, on the partial-evidence path, the first completion scores
fine and the second completion hits a missing key. -/
def pBBN : BBN := mkBBN [aNode, uNode, yNode] "y"

/-- C7: for a node with parents, a parent-assignment key absent from its CPT
makes `get_prob` fail with the missing-key (`KeyError`) error carrying that
key; and the first error raised during scoring propagates unchanged to the
caller of `classify` — on the full-evidence path whether it arises in the
target-true call or in the target-false call after the true call succeeded,
and on the partial-evidence path at whichever completion first fails after
all earlier completions scored successfully. No error is replaced by a
silent default. -/
theorem missing_parent_combination_propagates (n : BBN_Node) (val pv : String)
    (hpar : n.parents ≠ []) (hmiss : dGet n.p_table pv = none) :
    n.get_prob val pv = .error (.keyError pv) ∧
    (∀ (b : BBN) (h : Heap) (qa : Nat) (e : PyError),
      hGet h qa ≠ [] →
      firstUnknownVar b (hGet h qa) = none →
      getUnknowns b (hGet h qa) = [] →
      bbnQuery b (dSet (hGet h qa) b.target "t") = .error e →
      (classify b h qa).1 = .error e) ∧
    (∀ (b : BBN) (h : Heap) (qa : Nat) (e : PyError) (yes : ℚ),
      hGet h qa ≠ [] →
      firstUnknownVar b (hGet h qa) = none →
      getUnknowns b (hGet h qa) = [] →
      bbnQuery b (dSet (hGet h qa) b.target "t") = .ok yes →
      bbnQuery b (dSet (hGet h qa) b.target "f") = .error e →
      (classify b h qa).1 = .error e) ∧
    (∀ (b : BBN) (h : Heap) (qa : Nat) (e : PyError) (vs1 : List (List String))
      (v : List String) (vs2 : List (List String)),
      hGet h qa ≠ [] →
      firstUnknownVar b (hGet h qa) = none →
      getUnknowns b (hGet h qa) ≠ [] →
      allVecs (getUnknowns b (hGet h qa)).length = vs1 ++ v :: vs2 →
      (∀ w ∈ vs1,
        isOkE (score2 b (extendQ (hGet h qa) (getUnknowns b (hGet h qa)) w) "t") = true ∧
        isOkE (score2 b (extendQ (hGet h qa) (getUnknowns b (hGet h qa)) w) "f") = true) →
      (score2 b (extendQ (hGet h qa) (getUnknowns b (hGet h qa)) v) "t" = .error e ∨
        (∃ pt, score2 b (extendQ (hGet h qa) (getUnknowns b (hGet h qa)) v) "t" = .ok pt ∧
          score2 b (extendQ (hGet h qa) (getUnknowns b (hGet h qa)) v) "f" = .error e)) →
      (classify b h qa).1 = .error e) := by
  refine ⟨by simp [BBN_Node.get_prob, hpar, hmiss], ?_, ?_, ?_⟩
  · intro b h qa e hne hfv hu hq
    have hlt : qa < h.length := lt_length_of_hGet_ne_nil h qa hne
    rw [classify_full b h qa hne hfv hu, classifyAllEvidence_err1 b h qa hlt e hq]
  · intro b h qa e yes hne hfv hu hq1 hq2
    have hlt : qa < h.length := lt_length_of_hGet_ne_nil h qa hne
    rw [classify_full b h qa hne hfv hu,
      classifyAllEvidence_err2 b h qa hlt yes e hq1 hq2]
  · intro b h qa e vs1 v vs2 hne hfv hus hsplit hokpre herr
    have hlt : qa < h.length := lt_length_of_hGet_ne_nil h qa hne
    rw [classify_partial_path b h qa hne hfv hus]
    have hv0 : ∀ a ∈ [qa], a < h.length := by
      intro a ha
      have haq : a = qa := by simpa using ha
      rw [haq]; exact hlt
    obtain ⟨_, hcont, hvalid, hnodup, _⟩ :=
      buildFrom_spec (getUnknowns b (hGet h qa)) h [qa] hv0
    have hcont' : (buildQueriesFrom h [qa] (getUnknowns b (hGet h qa))).2.map
        (hGet (buildQueriesFrom h [qa] (getUnknowns b (hGet h qa))).1) =
        vs1.map (fun w => extendQ (hGet h qa) (getUnknowns b (hGet h qa)) w) ++
          extendQ (hGet h qa) (getUnknowns b (hGet h qa)) v ::
          vs2.map (fun w => extendQ (hGet h qa) (getUnknowns b (hGet h qa)) w) := by
      rw [hcont]
      simp only [flatMapL, List.append_nil, hsplit, List.map_append, List.map_cons]
    obtain ⟨a1, a, a2, haddr, hm1, hfa, hm2⟩ :=
      map_eq_append_cons _ _ _ _ _ hcont'
    have hok1 : ∀ x ∈ a1,
        isOkE (score2 b (hGet (buildQueriesFrom h [qa]
          (getUnknowns b (hGet h qa))).1 x) "t") = true ∧
        isOkE (score2 b (hGet (buildQueriesFrom h [qa]
          (getUnknowns b (hGet h qa))).1 x) "f") = true := by
      intro x hx
      have hmem : hGet (buildQueriesFrom h [qa] (getUnknowns b (hGet h qa))).1 x ∈
          a1.map (hGet (buildQueriesFrom h [qa] (getUnknowns b (hGet h qa))).1) :=
        List.mem_map_of_mem _ hx
      rw [hm1] at hmem
      obtain ⟨w, hw, heqw⟩ := List.mem_map.mp hmem
      rw [← heqw]
      exact hokpre w hw
    have herr' : score2 b (hGet (buildQueriesFrom h [qa]
          (getUnknowns b (hGet h qa))).1 a) "t" = .error e ∨
        (∃ pt, score2 b (hGet (buildQueriesFrom h [qa]
            (getUnknowns b (hGet h qa))).1 a) "t" = .ok pt ∧
          score2 b (hGet (buildQueriesFrom h [qa]
            (getUnknowns b (hGet h qa))).1 a) "f" = .error e) := by
      rw [hfa]
      exact herr
    have hscore := scoreLoop_propagates b e a1 a a2
      (buildQueriesFrom h [qa] (getUnknowns b (hGet h qa))).1 [] []
      (by rw [← haddr]; exact hvalid)
      (by rw [← haddr]; exact hnodup (by simp))
      hok1 herr'
    have h1eq : (classifyPartialEvidence b h qa (getUnknowns b (hGet h qa))).1 =
        (match (scoreLoop b (buildQueriesFrom h [qa] (getUnknowns b (hGet h qa))).1
          (buildQueriesFrom h [qa] (getUnknowns b (hGet h qa))).2 [] []).1 with
         | .error ee => (.error ee : Except PyError Bool)
         | .ok (ts, fs) => .ok (decide (fs.sum < ts.sum))) := rfl
    rw [h1eq, haddr, hscore]

theorem missing_parent_combination_propagates_witness :
    hdNode.get_prob "t" "xx" = .error (.keyError "xx") ∧
    (classify mBBN [[("a", "f")]] 0).1 = .error (.keyError "f") ∧
    (classify cBBN [[("c", "t")]] 0).1 = .error (.keyError "f") ∧
    (classify pBBN [[("a", "t")]] 0).1 = .error (.keyError "tf") := by
  have hthm := missing_parent_combination_propagates hdNode "t" "xx"
    (by decide) (by rfl)
  refine ⟨hthm.1, ?_, ?_, ?_⟩
  · exact hthm.2.1 mBBN [[("a", "f")]] 0 (.keyError "f")
      (by decide) (by decide) (by decide) (by decide)
  · exact hthm.2.2.1 cBBN [[("c", "t")]] 0 (.keyError "f") 0.2
      (by decide) (by decide) (by decide) (by rfl) (by decide)
  · exact hthm.2.2.2 pBBN [[("a", "t")]] 0 (.keyError "tf") [["t"]] ["f"] []
      (by decide) (by decide) (by decide) (by rfl) (by decide)
      (Or.inl (by decide))
